import Mathlib

/-!
Verification of the pipelab pipeline engine (`pipelab/pipeline.py`,
`pipelab/cache.py`) against its natural-language specification.

The Python code is shallowly embedded:
* Python dicts keyed by strings become association lists `List (String × α)`
  (insertion-ordered, first binding wins on lookup, like Python dicts with
  unique keys).
* `ArtifactNotFoundError` becomes the `PipeErr` error type; fallible code
  returns `Except`.
* Mutable objects with identity (pipelines in a composition) are modelled by
  natural-number identifiers plus explicit state maps.
-/

/-- Error raised by artifact lookups, mirroring `ArtifactNotFoundError`. -/
inductive PipeErr : Type where
  | notFound (name : String) : PipeErr
deriving DecidableEq

/-- A pipeline as seen by artifact resolution: its own artifact store
(`artifact_manager.artifacts`) and its registered parents (`_parents`),
mirroring the recursive structure walked by `Pipeline.get_artifact`. -/
inductive PipelineT (α : Type) : Type where
  | mk (store : List (String × α)) (parents : List (PipelineT α)) : PipelineT α

/-- The artifact store of the pipeline itself. -/
def ownStore {α : Type} : PipelineT α → List (String × α)
  | PipelineT.mk store _ => store

/-- The registered parents of the pipeline, in registration order. -/
def parentsOf {α : Type} : PipelineT α → List (PipelineT α)
  | PipelineT.mk _ parents => parents

/-- Dictionary lookup: `store.get(name)` on an association list, first
binding wins. -/
def storeGet {α : Type} : List (String × α) → String → Option α
  | [], _ => none
  | p :: rest, name => if p.1 = name then some p.2 else storeGet rest name

/-- `ArtifactInMemory.get_artifact`: raise when `raise_not_found` is set and
the name is absent, otherwise `self.artifacts.get(artifact_name, default)`. -/
def managerGet {α : Type} (store : List (String × α)) (name : String) (d : α)
    (raiseNF : Bool) : Except PipeErr α :=
  if raiseNF = true ∧ (storeGet store name).isNone = true then
    Except.error (PipeErr.notFound name)
  else
    Except.ok ((storeGet store name).getD d)

mutual
/-- `Pipeline.get_artifact`: try the own store; on `ArtifactNotFoundError`
walk the registered parents in order (each recursively), and when every
parent also misses, re-raise when `raise_not_found` is set, else return the
default. -/
def getArtifact {α : Type} : PipelineT α → String → α → Bool → Except PipeErr α
  | PipelineT.mk store parents, name, d, raiseNF =>
    match managerGet store name d raiseNF with
    | Except.ok v => Except.ok v
    | Except.error _ => getArtifactParents parents name d raiseNF

/-- The `for parent in self.parents` loop inside `Pipeline.get_artifact`:
return the first parent lookup that does not raise; when the loop falls
through, raise when `raise_not_found` is set and return the default
otherwise. -/
def getArtifactParents {α : Type} : List (PipelineT α) → String → α → Bool →
    Except PipeErr α
  | [], name, d, raiseNF =>
    if raiseNF = true then Except.error (PipeErr.notFound name) else Except.ok d
  | q :: rest, name, d, raiseNF =>
    match getArtifact q name d raiseNF with
    | Except.ok v => Except.ok v
    | Except.error _ => getArtifactParents rest name d raiseNF
end

mutual
/-- First-hit lookup over the whole ancestor chain, written from the spec's
words ("lookup first tries the Pipeline's own store; on miss it queries each
registered parent, in registration order, recursively through their own
ancestor chains; first hit wins"), used to compare `getArtifact` against the
claimed behaviour. -/
def chainLookup {α : Type} : PipelineT α → String → Option α
  | PipelineT.mk store parents, name =>
    match storeGet store name with
    | some v => some v
    | none => chainLookupList parents name

/-- First hit among a list of ancestor chains, in order. -/
def chainLookupList {α : Type} : List (PipelineT α) → String → Option α
  | [], _ => none
  | q :: rest, name =>
    match chainLookup q name with
    | some v => some v
    | none => chainLookupList rest name
end

/-- `Pipeline.__fill_params_from_step`, restricted to the artifact-carrying
parameters (the reserved `pipeline` parameter receives the pipeline object
itself and is outside the value domain): a parameter without a default is
resolved by `get_artifact(name)` (raising), a parameter with a default `dv`
by `get_artifact(name, default=dv, raise_not_found=False)`.  `d0` stands for
Python's `None`, the `default` argument of the raising call. -/
def fillParams {α : Type} (p : PipelineT α) (d0 : α) :
    List (String × Option α) → Except PipeErr (List (String × α))
  | [] => Except.ok []
  | (name, none) :: rest =>
    match getArtifact p name d0 true with
    | Except.ok v =>
      match fillParams p d0 rest with
      | Except.ok others => Except.ok ((name, v) :: others)
      | Except.error e => Except.error e
    | Except.error e => Except.error e
  | (name, some dv) :: rest =>
    match getArtifact p name dv false with
    | Except.ok v =>
      match fillParams p d0 rest with
      | Except.ok others => Except.ok ((name, v) :: others)
      | Except.error e => Except.error e
    | Except.error e => Except.error e

/-- Spec-level restatement of parameter filling once the resolution behaviour
of `getArtifact` is known: required parameters are resolved by first hit over
the whole ancestor chain, optional parameters by the own store only, falling
back to the declared default. -/
def fillParamsSpec {α : Type} (p : PipelineT α) (d0 : α) :
    List (String × Option α) → Except PipeErr (List (String × α))
  | [] => Except.ok []
  | (name, none) :: rest =>
    match chainLookup p name with
    | some v =>
      match fillParamsSpec p d0 rest with
      | Except.ok others => Except.ok ((name, v) :: others)
      | Except.error e => Except.error e
    | none => Except.error (PipeErr.notFound name)
  | (name, some dv) :: rest =>
    match fillParamsSpec p d0 rest with
    | Except.ok others =>
      Except.ok ((name, (storeGet (ownStore p) name).getD dv) :: others)
    | Except.error e => Except.error e

mutual
/-- A raising lookup really does walk the whole ancestor chain, first hit
wins, and raises exactly when the name is absent throughout the chain. -/
theorem getArtifact_raising_eq {α : Type} (p : PipelineT α) (name : String)
    (d : α) :
    getArtifact p name d true =
      (match chainLookup p name with
       | some v => Except.ok v
       | none => Except.error (PipeErr.notFound name)) := by
  match p with
  | PipelineT.mk store parents =>
    rw [getArtifact, chainLookup, managerGet]
    cases h : storeGet store name with
    | some v => simp [h]
    | none => simpa [h] using getArtifactParents_raising_eq parents name d

/-- The parent loop of a raising lookup returns the first hit among the
parents, and raises when all of them miss. -/
theorem getArtifactParents_raising_eq {α : Type} (ps : List (PipelineT α))
    (name : String) (d : α) :
    getArtifactParents ps name d true =
      (match chainLookupList ps name with
       | some v => Except.ok v
       | none => Except.error (PipeErr.notFound name)) := by
  match ps with
  | [] => rfl
  | q :: rest =>
    rw [getArtifactParents, chainLookupList, getArtifact_raising_eq q name d]
    cases h : chainLookup q name with
    | some v => simp
    | none => simpa using getArtifactParents_raising_eq rest name d
end

/-- A non-raising lookup never reaches the parent loop: the own-store miss
already returns the default. -/
theorem getArtifact_nonraising_eq {α : Type} (p : PipelineT α) (name : String)
    (d : α) :
    getArtifact p name d false =
      Except.ok ((storeGet (ownStore p) name).getD d) := by
  match p with
  | PipelineT.mk store parents => rw [getArtifact, managerGet]; simp [ownStore]

/-- Parameter filling follows the corrected resolution rules parameter by
parameter. -/
theorem fillParams_eq_spec {α : Type} (p : PipelineT α) (d0 : α)
    (sig : List (String × Option α)) :
    fillParams p d0 sig = fillParamsSpec p d0 sig := by
  induction sig with
  | nil => rfl
  | cons pr rest ih =>
    obtain ⟨name, od⟩ := pr
    cases od with
    | none =>
      rw [fillParams, fillParamsSpec, getArtifact_raising_eq, ih]
      cases chainLookup p name <;> simp
    | some dv =>
      rw [fillParams, fillParamsSpec, getArtifact_nonraising_eq, ih]

/-- C1 is refuted at a concrete input: the pipeline's own store is empty, a
registered parent holds artifact `a = 42`, yet a non-raising lookup with
default `0` — and likewise resolution of an optional parameter `a` with
declared default `0` — returns the default `0` instead of the ancestor's
`42`, so the optional/non-raising lookup never queries the parents. -/
theorem C1_counterexample :
    chainLookup (PipelineT.mk ([] : List (String × Nat))
      [PipelineT.mk [("a", 42)] []]) "a" = some 42 ∧
    storeGet ([] : List (String × Nat)) "a" = none ∧
    getArtifact (PipelineT.mk ([] : List (String × Nat))
      [PipelineT.mk [("a", 42)] []]) "a" 0 false = Except.ok 0 ∧
    fillParams (PipelineT.mk ([] : List (String × Nat))
      [PipelineT.mk [("a", 42)] []]) 0 [("a", some 0)] =
      Except.ok [("a", 0)] :=
  ⟨rfl, rfl, rfl, rfl⟩

/-- C1 (amended): a required (raising) lookup tries the own store and then
each registered parent in order, recursively through their ancestor chains,
first hit wins, raising `ArtifactNotFound` exactly when the name is absent
throughout the chain; a non-raising (optional) lookup, however, consults the
own store only and returns its value or else the default, never querying the
parents; parameter resolution during run applies the raising rule to
parameters without a default and the non-raising rule, with the declared
default, to the rest. -/
theorem C1_getArtifact_resolution {α : Type} (p : PipelineT α) (name : String)
    (d d0 : α) (sig : List (String × Option α)) :
    (getArtifact p name d true =
      (match chainLookup p name with
       | some v => Except.ok v
       | none => Except.error (PipeErr.notFound name))) ∧
    (getArtifact p name d false =
      Except.ok ((storeGet (ownStore p) name).getD d)) ∧
    fillParams p d0 sig = fillParamsSpec p d0 sig :=
  ⟨getArtifact_raising_eq p name d, getArtifact_nonraising_eq p name d,
   fillParams_eq_spec p d0 sig⟩

/-- `Pipeline.add_parent`: append the parent unless already registered. -/
def addParent (ps : List Nat) (q : Nat) : List Nat :=
  if q ∈ ps then ps else ps ++ [q]

/-- Point update of a parent map (pipelines are identified by `Nat` ids, the
map carries each pipeline's mutable `_parents` list). -/
def updateAt (pm : Nat → List Nat) (c : Nat) (l : List Nat) : Nat → List Nat :=
  fun q => if q = c then l else pm q

/-- First loop of `PipelineComposition._set_parents`: reset the parent list
of every pipeline iterated by `for pipeline in self.pipelines` — that is, of
every adjacency KEY. -/
def resetKeys (adj : List (Nat × List Nat)) (pm : Nat → List Nat) :
    Nat → List Nat :=
  fun q => if q ∈ adj.map Prod.fst then [] else pm q

/-- Inner loop of `_set_parents`: `for child in children:
child.add_parent(parent)`. -/
def addChildren (parent : Nat) (children : List Nat) (pm : Nat → List Nat) :
    Nat → List Nat :=
  children.foldl (fun acc c => updateAt acc c (addParent (acc c) parent)) pm

/-- Second loop of `_set_parents`: register every (parent, children) edge. -/
def addEdges (adj : List (Nat × List Nat)) (pm : Nat → List Nat) :
    Nat → List Nat :=
  adj.foldl (fun acc pc => addChildren pc.1 pc.2 acc) pm

/-- `PipelineComposition._set_parents`, run on construction. -/
def setParents (adj : List (Nat × List Nat)) (pm : Nat → List Nat) :
    Nat → List Nat :=
  addEdges adj (resetKeys adj pm)

/-- Registering a parent twice is the same as registering it once. -/
theorem addParent_addParent (l : List Nat) (q : Nat) :
    addParent (addParent l q) q = addParent l q := by
  unfold addParent
  by_cases h : q ∈ l
  · simp [h]
  · simp [h]

/-- Effect of the inner child loop on a single pipeline's parent list. -/
theorem addChildren_apply (parent : Nat) (children : List Nat)
    (pm : Nat → List Nat) (k : Nat) :
    addChildren parent children pm k =
      if k ∈ children then addParent (pm k) parent else pm k := by
  induction children generalizing pm with
  | nil => simp [addChildren]
  | cons c rest ih =>
    rw [addChildren, List.foldl_cons, ← addChildren]
    rw [ih (updateAt pm c (addParent (pm c) parent)) ]
    by_cases hkc : k = c
    · subst hkc
      by_cases hk : k ∈ rest <;>
        simp [hk, updateAt, addParent_addParent]
    · by_cases hk : k ∈ rest <;>
        simp [hk, updateAt, hkc]

/-- Exact effect of the edge loop on a pipeline whose parent list starts
free of the upcoming keys: it ends as the keys that list it as a child, in
adjacency order. -/
theorem addEdges_apply (l : List (Nat × List Nat)) (pm : Nat → List Nat)
    (k : Nat) (hfresh : ∀ pc ∈ l, pc.1 ∉ pm k)
    (hnd : (l.map Prod.fst).Nodup) :
    addEdges l pm k = pm k ++ (l.filter (fun pc => k ∈ pc.2)).map Prod.fst := by
  induction l generalizing pm with
  | nil => simp [addEdges]
  | cons pc rest ih =>
    rw [addEdges, List.foldl_cons, ← addEdges]
    have hpm1 : addChildren pc.1 pc.2 pm k =
        if k ∈ pc.2 then pm k ++ [pc.1] else pm k := by
      rw [addChildren_apply]
      by_cases hk : k ∈ pc.2
      · simp [hk, addParent, hfresh pc (List.mem_cons_self pc rest)]
      · simp [hk]
    have hnd' : (rest.map Prod.fst).Nodup := (List.nodup_cons.mp hnd).2
    have hfresh' : ∀ pc' ∈ rest, pc'.1 ∉ addChildren pc.1 pc.2 pm k := by
      intro pc' hpc'
      rw [hpm1]
      have h1 : pc'.1 ∉ pm k := hfresh pc' (List.mem_cons_of_mem pc hpc')
      have h2 : pc'.1 ≠ pc.1 := by
        intro he
        exact (List.nodup_cons.mp hnd).1 (he ▸ List.mem_map_of_mem Prod.fst hpc')
      by_cases hk : k ∈ pc.2 <;> simp [hk, h1, h2]
    rw [ih _ hfresh' hnd', hpm1]
    by_cases hk : k ∈ pc.2 <;> simp [hk]

/-- The edge loop only ever appends keys to a pipeline's parent list. -/
theorem addEdges_extends (l : List (Nat × List Nat)) (pm : Nat → List Nat)
    (k : Nat) :
    ∃ tail, addEdges l pm k = pm k ++ tail ∧
      ∀ x ∈ tail, x ∈ l.map Prod.fst := by
  induction l generalizing pm with
  | nil => exact ⟨[], by simp [addEdges], by simp⟩
  | cons pc rest ih =>
    rw [addEdges, List.foldl_cons, ← addEdges]
    obtain ⟨tail, htail, hsub⟩ := ih (addChildren pc.1 pc.2 pm)
    have hpm1 : addChildren pc.1 pc.2 pm k = pm k ∨
        addChildren pc.1 pc.2 pm k = pm k ++ [pc.1] := by
      rw [addChildren_apply]
      by_cases hk : k ∈ pc.2
      · by_cases hp : pc.1 ∈ pm k <;> simp [hk, hp, addParent]
      · simp [hk]
    rcases hpm1 with h1 | h1
    · exact ⟨tail, by rw [htail, h1], fun x hx => List.mem_cons_of_mem _ (hsub x hx)⟩
    · refine ⟨pc.1 :: tail, ?_, ?_⟩
      · rw [htail, h1, List.append_assoc]
        rfl
      · intro x hx
        rcases List.mem_cons.mp hx with rfl | hx
        · exact List.mem_cons_self _ _
        · exact List.mem_cons_of_mem _ (hsub x hx)

/-- C2 is refuted at a concrete input: pipeline 1 is a child (but not a key)
of the adjacency `{0: [1]}` and had parent 9 registered before construction;
after construction its parent list is `[9, 0]`, not the `[0]` the claim
requires, so parent lists of non-key children are not reset. -/
theorem C2_counterexample :
    setParents [(0, [1])] (fun q => if q = 1 then [9] else []) 1 = [9, 0] ∧
    ([9, 0] : List Nat) ≠ [0] :=
  ⟨rfl, by decide⟩

/-- C2 (amended): construction resets the parent lists of the adjacency KEYS
only; afterwards each key's parents are exactly the adjacency keys that list
it among their children, in adjacency order, independent of any previously
registered parents — while a child that is not itself a key keeps its prior
parent list, with (some of) the adjacency keys appended to it. -/
theorem C2_setParents (adj : List (Nat × List Nat)) (pm : Nat → List Nat)
    (k : Nat) (hnd : (adj.map Prod.fst).Nodup) :
    (k ∈ adj.map Prod.fst →
      setParents adj pm k = (adj.filter (fun pc => k ∈ pc.2)).map Prod.fst) ∧
    (k ∉ adj.map Prod.fst →
      ∃ tail, setParents adj pm k = pm k ++ tail ∧
        ∀ x ∈ tail, x ∈ adj.map Prod.fst) := by
  constructor
  · intro hk
    have h0 : resetKeys adj pm k = [] := by simp [resetKeys, hk]
    have := addEdges_apply adj (resetKeys adj pm) k
      (by intro pc _; rw [h0]; simp) hnd
    rw [setParents, this, h0, List.nil_append]
  · intro hk
    have h0 : resetKeys adj pm k = pm k := by simp [resetKeys, hk]
    obtain ⟨tail, htail, hsub⟩ := addEdges_extends adj (resetKeys adj pm) k
    exact ⟨tail, by rw [setParents, htail, h0], hsub⟩

/-- Witness for the amended C2 at the adjacency `{0: [1], 1: []}`: key 1 has
parent list exactly `[0]` after construction. -/
theorem C2_setParents_witness :
    (([(0, [1]), (1, [])] : List (Nat × List Nat)).map Prod.fst).Nodup ∧
    setParents [(0, [1]), (1, [])] (fun _ => [42]) 1 = [0] := by
  refine ⟨by decide, ?_⟩
  have h := (C2_setParents [(0, [1]), (1, [])] (fun _ => [42]) 1 (by decide)).1
    (by decide)
  rw [h]
  decide

/-- `inspect.signature(...).bind(*args, **kwargs)`: the explicitly provided
arguments, attached to the declared parameter names in signature order.
Calls are modelled as keyword mappings (the engine always calls
`step.execute(**params)`); argument values are modelled as `Nat` codes of
the opaque Python objects. -/
def boundArguments (sig : List (String × Option Nat))
    (call : List (String × Nat)) : List (String × Nat) :=
  sig.filterMap (fun pr => (storeGet call pr.1).map (fun v => (pr.1, v)))

/-- `BoundArguments.apply_defaults()`: the arguments mapping is REBUILT from
the signature parameters alone — a parameter keeps its bound value if the
current arguments hold its name, else gets its declared default, else is
skipped; names in the arguments mapping that are not parameter names are
dropped. -/
def applyDefaults (sig : List (String × Option Nat))
    (args : List (String × Nat)) : List (String × Nat) :=
  sig.filterMap (fun pr =>
    match storeGet args pr.1 with
    | some v => some (pr.1, v)
    | none => pr.2.map (fun dv => (pr.1, dv)))

/-- One assignment `d[k] = v` on an insertion-ordered dict: replace in place
when the key is present, append otherwise. -/
def dictSet (a : List (String × Nat)) (kv : String × Nat) :
    List (String × Nat) :=
  if (storeGet a kv.1).isSome then
    a.map (fun p => if p.1 = kv.1 then (p.1, kv.2) else p)
  else a ++ [kv]

/-- `a.update(b)` on insertion-ordered dicts. -/
def dictUpdate (a b : List (String × Nat)) : List (String × Nat) :=
  b.foldl dictSet a

/-- Pre-hash cache-key structure of `InDiskCacheWrapper.execute`: the bound
arguments with defaults applied, paired with the step's configuration
snapshot (`self.step.__dict__`); the two pickle streams are concatenated,
which the pair models.  `cloudpickle.dumps` followed by SHA-256 is the
opaque serialize-and-digest capability of the spec; the claims are settled
about this pre-hash structure, plus an arbitrary injective digest where the
positive direction needs one. -/
def diskKeySrc (sig : List (String × Option Nat))
    (cfg call : List (String × Nat)) :
    List (String × Nat) × List (String × Nat) :=
  (applyDefaults sig (boundArguments sig call), cfg)

/-- Pre-hash cache-key structure of `InMemoryCacheWrapper.execute`:
`bound.arguments.update(init_params)` followed by `bound.apply_defaults()`,
then the single serialized structure. -/
def memKeySrc (sig : List (String × Option Nat))
    (cfg call : List (String × Nat)) : List (String × Nat) :=
  applyDefaults sig (dictUpdate (boundArguments sig call) cfg)

/-- What the memory-cache key actually depends on: for each declared
parameter, the configuration value under that name when present, else the
bound argument, else the declared default; configuration fields not named
like a parameter are dropped. -/
def memKeySrcSpec (sig : List (String × Option Nat))
    (cfg call : List (String × Nat)) : List (String × Nat) :=
  sig.filterMap (fun pr =>
    match storeGet cfg pr.1 with
    | some v => some (pr.1, v)
    | none =>
      match storeGet call pr.1 with
      | some v => some (pr.1, v)
      | none => pr.2.map (fun dv => (pr.1, dv)))


/-- A name that is not among the keys looks up to nothing. -/
theorem storeGet_eq_none_of_not_mem_keys {α : Type} (l : List (String × α))
    (n : String) (h : n ∉ l.map Prod.fst) : storeGet l n = none := by
  induction l with
  | nil => rfl
  | cons q l' ih =>
    rw [storeGet, if_neg, ih]
    · intro hq
      exact h (List.mem_cons_of_mem _ hq)
    · intro he
      exact h (by rw [List.map_cons, he]; exact List.mem_cons_self _ _)

/-- Lookup in a key-preserving in-place value rewrite. -/
theorem storeGet_mapValue (a : List (String × Nat)) (m : String) (v : Nat)
    (n : String) :
    storeGet (a.map (fun p => if p.1 = m then (p.1, v) else p)) n =
      if n = m then (storeGet a m).map (fun _ => v) else storeGet a n := by
  induction a with
  | nil => by_cases h : n = m <;> simp [storeGet, h]
  | cons p a' ih =>
    by_cases hpm : p.1 = m
    · by_cases hnm : n = m
      · subst hnm
        simp [storeGet, hpm]
      · have h1 : ¬p.1 = n := by
          rw [hpm]
          exact fun he => hnm he.symm
        have hmn : ¬m = n := fun he => hnm he.symm
        simp [storeGet, hpm, h1, hnm, hmn, ih]
    · by_cases hnm : n = m
      · subst hnm
        simp [storeGet, hpm, ih]
      · by_cases hpn : p.1 = n
        · simp [storeGet, hpm, hpn, hnm]
        · simp [storeGet, hpm, hpn, hnm, ih]

/-- Lookup after appending a single binding at the back. -/
theorem storeGet_append_single (a : List (String × Nat)) (kv : String × Nat)
    (n : String) :
    storeGet (a ++ [kv]) n =
      match storeGet a n with
      | some v => some v
      | none => if kv.1 = n then some kv.2 else none := by
  induction a with
  | nil => by_cases h : kv.1 = n <;> simp [storeGet, h]
  | cons p a' ih =>
    by_cases hpn : p.1 = n <;> simp [storeGet, hpn, ih]

/-- After `d[k] = v`, looking up `k` yields `v`. -/
theorem storeGet_dictSet_self (a : List (String × Nat)) (kv : String × Nat) :
    storeGet (dictSet a kv) kv.1 = some kv.2 := by
  rw [dictSet]
  by_cases h : (storeGet a kv.1).isSome
  · rw [if_pos h, storeGet_mapValue, if_pos rfl]
    rcases Option.isSome_iff_exists.mp h with ⟨w, hw⟩
    rw [hw]
    rfl
  · rw [if_neg h, storeGet_append_single]
    rw [Option.not_isSome_iff_eq_none.mp h]
    simp

/-- `d[k] = v` does not change lookups of other keys. -/
theorem storeGet_dictSet_other (a : List (String × Nat)) (kv : String × Nat)
    (n : String) (h : n ≠ kv.1) :
    storeGet (dictSet a kv) n = storeGet a n := by
  rw [dictSet]
  by_cases hs : (storeGet a kv.1).isSome
  · rw [if_pos hs, storeGet_mapValue, if_neg h]
  · rw [if_neg hs, storeGet_append_single]
    cases hg : storeGet a n with
    | some v => rfl
    | none => rw [if_neg (Ne.symm h)]

/-- Lookup in `a.update(b)` for a duplicate-free `b`: `b`'s binding wins,
otherwise `a`'s remains. -/
theorem storeGet_dictUpdate (a b : List (String × Nat))
    (hb : (b.map Prod.fst).Nodup) (n : String) :
    storeGet (dictUpdate a b) n =
      match storeGet b n with
      | some v => some v
      | none => storeGet a n := by
  induction b generalizing a with
  | nil => simp [dictUpdate, storeGet]
  | cons kv rest ih =>
    rw [dictUpdate, List.foldl_cons, ← dictUpdate]
    have hnd' : (rest.map Prod.fst).Nodup := (List.nodup_cons.mp hb).2
    rw [ih (dictSet a kv) hnd']
    by_cases hkn : n = kv.1
    · subst hkn
      have hrest : storeGet rest kv.1 = none :=
        storeGet_eq_none_of_not_mem_keys rest kv.1 (List.nodup_cons.mp hb).1
      rw [hrest, storeGet_dictSet_self]
      simp [storeGet]
    · rw [storeGet_dictSet_other a kv n hkn]
      rw [storeGet, if_neg (fun he => hkn he.symm)]

/-- What binding attaches to each name: exactly the call's value, and only
for declared parameter names. -/
theorem storeGet_boundArguments (sig : List (String × Option Nat))
    (call : List (String × Nat)) (n : String) :
    storeGet (boundArguments sig call) n =
      if n ∈ sig.map Prod.fst then storeGet call n else none := by
  induction sig with
  | nil => simp [boundArguments, storeGet]
  | cons pr sig' ih =>
    rw [boundArguments, List.filterMap_cons]
    rw [boundArguments] at ih
    cases hc : storeGet call pr.1 with
    | some v =>
      by_cases hn : pr.1 = n
      · subst hn
        simp [storeGet, hc]
      · have hne : n ≠ pr.1 := fun he => hn he.symm
        have hiff : (n ∈ pr.1 :: List.map Prod.fst sig') ↔
            n ∈ List.map Prod.fst sig' := by
          simp [List.mem_cons, hne]
        simp [storeGet, hn, ih]
        rw [if_congr hiff rfl rfl]
    | none =>
      by_cases hn : pr.1 = n
      · subst hn
        simp [storeGet, ih, hc]
      · have hne : n ≠ pr.1 := fun he => hn he.symm
        have hiff : (n ∈ pr.1 :: List.map Prod.fst sig') ↔
            n ∈ List.map Prod.fst sig' := by
          simp [List.mem_cons, hne]
        simp [storeGet, hc, ih]
        rw [if_congr hiff rfl rfl]

/-- The memory-cache key really is the per-parameter effective value, with
configuration shadowing same-named arguments and non-parameter
configuration fields dropped. -/
theorem memKeySrc_eq_spec (sig : List (String × Option Nat))
    (cfg call : List (String × Nat)) (hc : (cfg.map Prod.fst).Nodup) :
    memKeySrc sig cfg call = memKeySrcSpec sig cfg call := by
  rw [memKeySrc, memKeySrcSpec, applyDefaults]
  apply List.filterMap_congr
  intro pr hpr
  rw [storeGet_dictUpdate _ _ hc, storeGet_boundArguments,
    if_pos (List.mem_map_of_mem Prod.fst hpr)]
  cases storeGet cfg pr.1 <;> cases storeGet call pr.1 <;> rfl

/-- C3 is refuted at a concrete input: a step with a single execute
parameter `x` (default 0) and configuration field `c` is called with `x = 3`
once with `c = 1` and once with `c = 2`.  The two memory-cache pre-hash
structures are identical, so the serialized bytes and hence the SHA-256
cache keys coincide: the configuration change does NOT change the
memory-cache key and the second call is served the first call's cached
result (a false hit). -/
theorem C3_counterexample :
    memKeySrc [("x", some 0)] [("c", 1)] [("x", 3)] =
      memKeySrc [("x", some 0)] [("c", 2)] [("x", 3)] ∧
    ([("c", 1)] : List (String × Nat)) ≠ [("c", 2)] :=
  ⟨rfl, by decide⟩

/-- C3 (amended): for the disk wrapper the claim holds — with the
serializer-plus-digest treated as the injective capability the spec
declares, two calls get the same key exactly when their defaults-applied
bound arguments and their configuration snapshots both agree, so any
difference in either yields a different key.  For the memory wrapper the
key instead depends only on the per-parameter effective values in which a
configuration field named like a declared parameter shadows the bound
argument and configuration fields not named like a parameter are ignored;
in particular two calls whose configurations agree on all declared
parameter names share the key even when the configurations differ
elsewhere. -/
theorem C3_cacheKey_derivation {β : Type}
    (digest : List (String × Nat) × List (String × Nat) → β)
    (hinj : Function.Injective digest) (sig : List (String × Option Nat))
    (cfg cfg' call call' : List (String × Nat))
    (hc : (cfg.map Prod.fst).Nodup) (hc' : (cfg'.map Prod.fst).Nodup) :
    (digest (diskKeySrc sig cfg call) = digest (diskKeySrc sig cfg' call') ↔
      (applyDefaults sig (boundArguments sig call) =
        applyDefaults sig (boundArguments sig call') ∧ cfg = cfg')) ∧
    memKeySrc sig cfg call = memKeySrcSpec sig cfg call ∧
    ((∀ n ∈ sig.map Prod.fst, storeGet cfg n = storeGet cfg' n) →
      memKeySrc sig cfg call = memKeySrc sig cfg' call) := by
  refine ⟨?_, memKeySrc_eq_spec sig cfg call hc, ?_⟩
  · constructor
    · intro h
      have := hinj h
      rw [diskKeySrc, diskKeySrc] at this
      exact ⟨congrArg Prod.fst this, congrArg Prod.snd this⟩
    · intro h
      rw [diskKeySrc, diskKeySrc, h.1, h.2]
  · intro hagree
    rw [memKeySrc_eq_spec sig cfg call hc, memKeySrc_eq_spec sig cfg' call hc']
    rw [memKeySrcSpec, memKeySrcSpec]
    apply List.filterMap_congr
    intro pr hpr
    rw [hagree pr.1 (List.mem_map_of_mem Prod.fst hpr)]

/-- Witness for the amended C3 with the identity digest: on the
counterexample's inputs the disk keys differ while the memory keys agree. -/
theorem C3_cacheKey_derivation_witness :
    (id (diskKeySrc [("x", some 0)] [("c", 1)] [("x", 3)]) =
        id (diskKeySrc [("x", some 0)] [("c", 2)] [("x", 3)]) ↔
      (applyDefaults [("x", some 0)]
          (boundArguments [("x", some 0)] [("x", 3)]) =
        applyDefaults [("x", some 0)]
          (boundArguments [("x", some 0)] [("x", 3)]) ∧
        ([("c", 1)] : List (String × Nat)) = [("c", 2)])) ∧
    memKeySrc [("x", some 0)] [("c", 1)] [("x", 3)] =
      memKeySrcSpec [("x", some 0)] [("c", 1)] [("x", 3)] ∧
    ((∀ n ∈ ([("x", some 0)] : List (String × Option Nat)).map Prod.fst,
        storeGet ([("c", 1)] : List (String × Nat)) n = storeGet [("c", 2)] n) →
      memKeySrc [("x", some 0)] [("c", 1)] [("x", 3)] =
        memKeySrc [("x", some 0)] [("c", 2)] [("x", 3)]) :=
  C3_cacheKey_derivation id (fun _ _ h => h) [("x", some 0)] [("c", 1)]
    [("c", 2)] [("x", 3)] [("x", 3)] (by decide) (by decide)

/-- `PipelineStep.execute_inverse` as defined on the base class: whatever
the pipeline and the keyword arguments are, it returns the EMPTY mapping
(`return {}`). -/
def executeInverseDefault {α : Type} (p : PipelineT α)
    (kwargs : List (String × α)) : List (String × α) :=
  []

/-- A processed step as recorded by the engine: its name, its body as seen
by `Pipeline.run` (the resolved store mapped to the produced artifacts, or a
propagating exception of arbitrary payload ε), and its
`execute_inverse` transform (the pipeline argument is immaterial to the
claims and dropped). -/
structure StepT (α ε : Type) : Type where
  name : String
  body : List (String × α) → Except ε (List (String × α))
  inv : List (String × α) → List (String × α)

/-- `dict[name] = value`: overwrite in place or insert at the back. -/
def saveStore {α : Type} (st : List (String × α)) (n : String) (v : α) :
    List (String × α) :=
  if (storeGet st n).isSome then
    st.map (fun p => if p.1 = n then (p.1, v) else p)
  else st ++ [(n, v)]

/-- `Pipeline.__save_step_artifacts`: persist every produced artifact into
the pipeline's own store. -/
def saveAll {α : Type} (st : List (String × α)) (outs : List (String × α)) :
    List (String × α) :=
  outs.foldl (fun acc nv => saveStore acc nv.1 nv.2) st

/-- The mutable state of one `Pipeline`: artifact store, `finished` flag and
`_processed_stack` history. -/
structure PipeState (α ε : Type) : Type where
  store : List (String × α)
  finished : Bool
  stack : List (StepT α ε)

/-- The `for step in self.steps` loop of `Pipeline.run`: execute each step
on the current store, persist its artifacts, push it onto the history
stack; a raising body stops the loop at once, leaving the state as it was
before the failing step. -/
def runLoop {α ε : Type} : List (StepT α ε) → PipeState α ε →
    PipeState α ε × Option ε
  | [], s => (s, none)
  | st :: rest, s =>
    match st.body s.store with
    | Except.error e => (s, some e)
    | Except.ok outs =>
      runLoop rest
        { s with store := saveAll s.store outs, stack := s.stack ++ [st] }

/-- `Pipeline.run`: skip everything when already finished, otherwise run
the step loop and set `finished` only after the loop completes without an
exception. -/
def pipeRun {α ε : Type} (steps : List (StepT α ε)) (s : PipeState α ε) :
    PipeState α ε × Option ε :=
  if s.finished = true then (s, none)
  else
    match runLoop steps s with
    | (s1, none) => ({ s1 with finished := true }, none)
    | r => r

/-- `Pipeline.clear`: empty the artifact store, reset `finished`; the
history stack is untouched. -/
def pipeClear {α ε : Type} (s : PipeState α ε) : PipeState α ε :=
  { store := [], finished := false, stack := s.stack }

/-- `Pipeline.reverse_steps`: fold `execute_inverse` over the processed
stack from the most recent step backwards, seeded with the given kwargs. -/
def reverseSteps {α ε : Type} (s : PipeState α ε)
    (kwargs : List (String × α)) : List (String × α) :=
  s.stack.foldr (fun st acc => st.inv acc) kwargs

/-- The step loop never touches the `finished` flag. -/
theorem runLoop_finished {α ε : Type} (steps : List (StepT α ε))
    (s : PipeState α ε) :
    (runLoop steps s).1.finished = s.finished := by
  induction steps generalizing s with
  | nil => rfl
  | cons st rest ih =>
    rw [runLoop]
    cases st.body s.store with
    | error e => rfl
    | ok outs => exact ih _

/-- A step loop that completes pushes exactly its steps, in order, onto the
history stack. -/
theorem runLoop_stack_of_ok {α ε : Type} (steps : List (StepT α ε))
    (s s1 : PipeState α ε) (h : runLoop steps s = (s1, none)) :
    s1.stack = s.stack ++ steps := by
  induction steps generalizing s with
  | nil =>
    rw [runLoop] at h
    cases h
    simp
  | cons st rest ih =>
    rw [runLoop] at h
    cases hb : st.body s.store with
    | error e =>
      rw [hb] at h
      cases h
    | ok outs =>
      rw [hb] at h
      have := ih _ h
      simpa using this

/-- Running a concatenation of step lists runs the first list and, when it
completes, continues with the second from the resulting state. -/
theorem runLoop_append {α ε : Type} (a b : List (StepT α ε))
    (s : PipeState α ε) :
    runLoop (a ++ b) s =
      (match runLoop a s with
       | (s1, none) => runLoop b s1
       | r => r) := by
  induction a generalizing s with
  | nil => simp [runLoop]
  | cons st rest ih =>
    rw [List.cons_append, runLoop, runLoop]
    cases st.body s.store with
    | error e => rfl
    | ok outs => exact ih _

/-- C6: when a step's body raises during `run`, the exception propagates
unmodified, the run aborts with the state reached before the failing step
(so no later step executes and the failing step is not pushed), `finished`
stays false and the history stack holds exactly the previously completed
steps. -/
theorem C6_run_aborts_on_exception {α ε : Type} (pre post : List (StepT α ε))
    (st : StepT α ε) (s s1 : PipeState α ε) (e : ε)
    (hfin : s.finished = false) (hpre : runLoop pre s = (s1, none))
    (herr : st.body s1.store = Except.error e) :
    pipeRun (pre ++ st :: post) s = (s1, some e) ∧
    s1.finished = false ∧
    s1.stack = s.stack ++ pre := by
  have hloop : runLoop (pre ++ st :: post) s = (s1, some e) := by
    rw [runLoop_append, hpre]
    show runLoop (st :: post) s1 = (s1, some e)
    rw [runLoop, herr]
  refine ⟨?_, ?_, runLoop_stack_of_ok pre s s1 hpre⟩
  · rw [pipeRun, if_neg (by rw [hfin]; exact Bool.false_ne_true), hloop]
  · have := runLoop_finished pre s
    rw [hpre] at this
    rw [this, hfin]

/-- A completed-pipeline step for the witnesses: saves `a = 1`. -/
def stepOkW : StepT Nat Nat :=
  { name := "s_ok", body := fun _ => Except.ok [("a", 1)], inv := fun kw => kw }

/-- A failing step for the witnesses: raises payload `7`. -/
def stepBadW : StepT Nat Nat :=
  { name := "s_bad", body := fun _ => Except.error 7, inv := fun kw => kw }

/-- Witness for C6: with one completed step and then a failing one, `run`
propagates the exception, leaves `finished` false and the stack holding
exactly the completed step. -/
theorem C6_run_aborts_on_exception_witness :
    pipeRun [stepOkW, stepBadW] ⟨[], false, []⟩ =
      (⟨[("a", 1)], false, [stepOkW]⟩, some 7) ∧
    (⟨[("a", 1)], false, [stepOkW]⟩ : PipeState Nat Nat).finished = false ∧
    (⟨[("a", 1)], false, [stepOkW]⟩ : PipeState Nat Nat).stack =
      ([] : List (StepT Nat Nat)) ++ [stepOkW] :=
  C6_run_aborts_on_exception [stepOkW] [] stepBadW ⟨[], false, []⟩
    ⟨[("a", 1)], false, [stepOkW]⟩ 7 rfl rfl rfl

/-- C9: `run` on a finished pipeline is a complete no-op — whatever the
step list, the state (store, stack, flag) is returned unchanged and no step
body runs; and a run that completes every step without an exception sets
`finished`, so an immediately following `run` performs no step executions. -/
theorem C9_finished_run_noop {α ε : Type} (steps : List (StepT α ε))
    (s s1 : PipeState α ε) :
    (s.finished = true → ∀ steps2 : List (StepT α ε), pipeRun steps2 s = (s, none)) ∧
    (s.finished = false → runLoop steps s = (s1, none) →
      pipeRun steps s = ({ s1 with finished := true }, none) ∧
      ∀ steps2 : List (StepT α ε),
        pipeRun steps2 { s1 with finished := true } =
          ({ s1 with finished := true }, none)) := by
  constructor
  · intro hfin steps2
    rw [pipeRun, if_pos hfin]
  · intro hfin hloop
    constructor
    · rw [pipeRun, if_neg (by rw [hfin]; exact Bool.false_ne_true), hloop]
    · intro steps2
      rw [pipeRun, if_pos rfl]

/-- Witness for C9 at a one-step pipeline: the first run saves `a = 1` and
sets the flag, the second run returns the state unchanged. -/
theorem C9_finished_run_noop_witness :
    pipeRun [stepOkW] ⟨[], false, []⟩ =
      (⟨[("a", 1)], true, [stepOkW]⟩, none) ∧
    pipeRun [stepOkW] ⟨[("a", 1)], true, [stepOkW]⟩ =
      (⟨[("a", 1)], true, [stepOkW]⟩, none) := by
  have h := (C9_finished_run_noop [stepOkW] (⟨[], false, []⟩ : PipeState Nat Nat)
    ⟨[("a", 1)], false, [stepOkW]⟩).2 rfl rfl
  exact ⟨h.1, h.2 [stepOkW]⟩

/-- C10: `clear` empties the artifact store and resets `finished` but keeps
the processed-step history stack, so `reverse_steps` still folds over every
step executed before the clear, and a subsequent run that completes appends
all its steps to the old stack instead of rebuilding it from empty. -/
theorem C10_clear_keeps_history {α ε : Type} (s : PipeState α ε)
    (kwargs : List (String × α)) (steps : List (StepT α ε))
    (s1 : PipeState α ε) :
    (pipeClear s).store = [] ∧
    (pipeClear s).finished = false ∧
    (pipeClear s).stack = s.stack ∧
    reverseSteps (pipeClear s) kwargs = reverseSteps s kwargs ∧
    (runLoop steps (pipeClear s) = (s1, none) →
      s1.stack = s.stack ++ steps) := by
  refine ⟨rfl, rfl, rfl, rfl, ?_⟩
  intro h
  have := runLoop_stack_of_ok steps (pipeClear s) s1 h
  simpa [pipeClear] using this

/-- Witness for C10: after a run, a clear and a second run, the stack holds
the step twice while the store was rebuilt from empty. -/
theorem C10_clear_keeps_history_witness :
    (pipeClear (⟨[("a", 1)], true, [stepOkW]⟩ : PipeState Nat Nat)).store = [] ∧
    (pipeClear (⟨[("a", 1)], true, [stepOkW]⟩ : PipeState Nat Nat)).stack =
      [stepOkW] ∧
    (⟨[("a", 1)], false, [stepOkW, stepOkW]⟩ : PipeState Nat Nat).stack =
      [stepOkW] ++ [stepOkW] := by
  have h := C10_clear_keeps_history
    (⟨[("a", 1)], true, [stepOkW]⟩ : PipeState Nat Nat) [] [stepOkW]
    ⟨[("a", 1)], false, [stepOkW, stepOkW]⟩
  exact ⟨h.1, h.2.2.1, h.2.2.2.2 rfl⟩

/-- C4 is refuted at a concrete input: the base-class `execute_inverse`
applied to `kwargs = {a: 1}` returns the empty mapping, not `kwargs`. -/
theorem C4_counterexample :
    executeInverseDefault (PipelineT.mk ([] : List (String × Nat)) [])
      [("a", 1)] = [] ∧
    ([] : List (String × Nat)) ≠ [("a", 1)] :=
  ⟨rfl, by decide⟩

/-- C4 (amended): for every step that does not override the inverse
transform, `executeInverse(pipeline, kwargs)` returns the EMPTY mapping
whatever `kwargs` holds; consequently a `reverse_steps` fold over a
non-empty history of such steps collapses to the empty mapping instead of
threading `kwargs` through. -/
theorem C4_executeInverse_default {α ε : Type} (p : PipelineT α)
    (kwargs : List (String × α)) (store : List (String × α)) (fin : Bool)
    (stack : List (StepT α ε)) :
    executeInverseDefault p kwargs = [] ∧
    (stack ≠ [] → (∀ st ∈ stack, ∀ kw, st.inv kw = []) →
      reverseSteps ⟨store, fin, stack⟩ kwargs = []) := by
  refine ⟨rfl, ?_⟩
  intro hne hall
  cases stack with
  | nil => exact absurd rfl hne
  | cons st rest =>
    rw [reverseSteps, List.foldr_cons]
    exact hall st (List.mem_cons_self _ _) _

/-- A step whose inverse is the un-overridden default. -/
def stepDefaultInvW : StepT Nat Nat :=
  { name := "s_def", body := fun _ => Except.ok [],
    inv := fun kw => executeInverseDefault (PipelineT.mk [] []) kw }

/-- Witness for the amended C4: a stack holding one default-inverse step
maps `{a: 1}` to the empty mapping under `reverse_steps`. -/
theorem C4_executeInverse_default_witness :
    executeInverseDefault (PipelineT.mk ([] : List (String × Nat)) [])
      [("a", 1)] = [] ∧
    reverseSteps (⟨[], false, [stepDefaultInvW]⟩ : PipeState Nat Nat)
      [("a", 1)] = [] := by
  have h := C4_executeInverse_default (PipelineT.mk ([] : List (String × Nat)) [])
    [("a", 1)] [] false [stepDefaultInvW]
  refine ⟨h.1, h.2 (by simp) ?_⟩
  intro st hst kw
  rcases List.mem_singleton.mp hst with rfl
  rfl

/-- Generic first-match lookup for cache mappings with arbitrary key type. -/
def lookupKey {κ ν : Type} [DecidableEq κ] : List (κ × ν) → κ → Option ν
  | [], _ => none
  | p :: rest, k => if p.1 = k then some p.2 else lookupKey rest k

/-- Appending a binding for a previously absent key makes it findable. -/
theorem lookupKey_append_self {κ ν : Type} [DecidableEq κ]
    (l : List (κ × ν)) (k : κ) (v : ν) (h : lookupKey l k = none) :
    lookupKey (l ++ [(k, v)]) k = some v := by
  induction l with
  | nil => simp [lookupKey]
  | cons p rest ih =>
    rw [lookupKey] at h
    rw [List.cons_append, lookupKey]
    by_cases hp : p.1 = k
    · rw [if_pos hp] at h
      cases h
    · rw [if_neg hp] at h ⊢
      exact ih h

/-- A cache-wrapped step: name, declared execute signature, configuration
snapshot (`__dict__`) and the wrapped body (`step.execute`, modelled as a
function of the call mapping). -/
structure StepModel : Type where
  name : String
  sig : List (String × Option Nat)
  cfg : List (String × Nat)
  body : List (String × Nat) → Nat

/-- `InMemoryCacheWrapper.execute`.  The cache argument models the single
class attribute `InMemoryCacheWrapper.cache` shared by every instance; its
keys carry only the serialized bound-arguments structure, with no per-step
namespace.  The log records each invocation of a wrapped body, by step
name. -/
def memExecute (st : StepModel) (call : List (String × Nat))
    (cache : List (List (String × Nat) × Nat)) (log : List String) :
    Nat × List (List (String × Nat) × Nat) × List String :=
  match lookupKey cache (memKeySrc st.sig st.cfg call) with
  | some v => (v, cache, log)
  | none =>
    ((st.body call),
     cache ++ [(memKeySrc st.sig st.cfg call, st.body call)],
     log ++ [st.name])

/-- `InDiskCacheWrapper.execute`.  The filesystem is modelled as a mapping
whose keys pair the step name (the per-step cache directory
`cache_dir/step.name`) with the serialized key structure (the
`{hash}.pkl` file name). -/
def diskExecute (st : StepModel) (call : List (String × Nat))
    (dcache : List ((String × (List (String × Nat) × List (String × Nat))) × Nat))
    (log : List String) :
    Nat × List ((String × (List (String × Nat) × List (String × Nat))) × Nat) ×
      List String :=
  match lookupKey dcache (st.name, diskKeySrc st.sig st.cfg call) with
  | some v => (v, dcache, log)
  | none =>
    ((st.body call),
     dcache ++ [((st.name, diskKeySrc st.sig st.cfg call), st.body call)],
     log ++ [st.name])

/-- C7: two successive calls of a cache-wrapped step with identical
arguments and identical configuration invoke the wrapped body exactly once
(one new log entry across both calls) and return the same result — for the
in-memory wrapper and for the disk wrapper alike (given that the key is not
cached beforehand). -/
theorem C7_cache_idempotent (st : StepModel) (call : List (String × Nat))
    (mem0 : List (List (String × Nat) × Nat)) (log0 : List String)
    (dcache0 : List ((String × (List (String × Nat) × List (String × Nat))) × Nat))
    (dlog0 : List String)
    (hmiss : lookupKey mem0 (memKeySrc st.sig st.cfg call) = none)
    (hdmiss : lookupKey dcache0 (st.name, diskKeySrc st.sig st.cfg call) = none) :
    ((memExecute st call mem0 log0).1 =
      (memExecute st call (memExecute st call mem0 log0).2.1
        (memExecute st call mem0 log0).2.2).1 ∧
     (memExecute st call (memExecute st call mem0 log0).2.1
        (memExecute st call mem0 log0).2.2).2.2 = log0 ++ [st.name]) ∧
    ((diskExecute st call dcache0 dlog0).1 =
      (diskExecute st call (diskExecute st call dcache0 dlog0).2.1
        (diskExecute st call dcache0 dlog0).2.2).1 ∧
     (diskExecute st call (diskExecute st call dcache0 dlog0).2.1
        (diskExecute st call dcache0 dlog0).2.2).2.2 = dlog0 ++ [st.name]) := by
  constructor
  · rw [memExecute, hmiss]
    rw [memExecute, lookupKey_append_self _ _ _ hmiss]
    exact ⟨rfl, rfl⟩
  · rw [diskExecute, hdmiss]
    rw [diskExecute, lookupKey_append_self _ _ _ hdmiss]
    exact ⟨rfl, rfl⟩

/-- A concrete wrapped step for the cache witnesses. -/
def stepModelW : StepModel :=
  { name := "w1", sig := [("x", some 0)], cfg := [("c", 5)],
    body := fun call => (storeGet call "x").getD 0 + 1 }

/-- A second wrapped step, with a different name but key-equal derivation,
for the sharing witness. -/
def stepModelW2 : StepModel :=
  { name := "w2", sig := [("x", some 0)], cfg := [("c", 5)],
    body := fun call => (storeGet call "x").getD 0 + 100 }

/-- Witness for C7 on an empty cache: the second identical call is a hit,
the body ran once, both calls return 4. -/
theorem C7_cache_idempotent_witness :
    ((memExecute stepModelW [("x", 3)] [] []).1 =
      (memExecute stepModelW [("x", 3)]
        (memExecute stepModelW [("x", 3)] [] []).2.1
        (memExecute stepModelW [("x", 3)] [] []).2.2).1 ∧
     (memExecute stepModelW [("x", 3)]
        (memExecute stepModelW [("x", 3)] [] []).2.1
        (memExecute stepModelW [("x", 3)] [] []).2.2).2.2 =
       ([] : List String) ++ [stepModelW.name]) ∧
    ((diskExecute stepModelW [("x", 3)] [] []).1 =
      (diskExecute stepModelW [("x", 3)]
        (diskExecute stepModelW [("x", 3)] [] []).2.1
        (diskExecute stepModelW [("x", 3)] [] []).2.2).1 ∧
     (diskExecute stepModelW [("x", 3)]
        (diskExecute stepModelW [("x", 3)] [] []).2.1
        (diskExecute stepModelW [("x", 3)] [] []).2.2).2.2 =
       ([] : List String) ++ [stepModelW.name]) :=
  C7_cache_idempotent stepModelW [("x", 3)] [] [] [] [] rfl rfl

/-- C8: all memory wrappers share the one class-level cache with no
per-step namespace — after step A's execute cached a result, a later
execute of a DIFFERENT step B whose derivation yields the same key returns
A's cached value and never invokes B's body (no new log entry); the disk
wrapper instead namespaces entries under the per-step-name directory, so
with distinct step names B's execute misses and B's own body runs even
though the serialized key structures are equal. -/
theorem C8_shared_memory_cache (stA stB : StepModel)
    (callA callB : List (String × Nat))
    (mem0 : List (List (String × Nat) × Nat)) (log0 dlog0 : List String)
    (hkey : memKeySrc stB.sig stB.cfg callB = memKeySrc stA.sig stA.cfg callA)
    (hmiss : lookupKey mem0 (memKeySrc stA.sig stA.cfg callA) = none)
    (hnames : stA.name ≠ stB.name) :
    ((memExecute stB callB (memExecute stA callA mem0 log0).2.1
        (memExecute stA callA mem0 log0).2.2).1 =
      (memExecute stA callA mem0 log0).1 ∧
     (memExecute stB callB (memExecute stA callA mem0 log0).2.1
        (memExecute stA callA mem0 log0).2.2).2.2 =
      (memExecute stA callA mem0 log0).2.2) ∧
    (diskExecute stB callB (diskExecute stA callA [] dlog0).2.1
        (diskExecute stA callA [] dlog0).2.2).2.2 =
      (diskExecute stA callA [] dlog0).2.2 ++ [stB.name] := by
  constructor
  · have hA : memExecute stA callA mem0 log0 =
        (stA.body callA,
         mem0 ++ [(memKeySrc stA.sig stA.cfg callA, stA.body callA)],
         log0 ++ [stA.name]) := by
      rw [memExecute, hmiss]
    rw [hA]
    simp only [memExecute]
    rw [hkey, lookupKey_append_self _ _ _ hmiss]
    exact ⟨rfl, rfl⟩
  · have hne : ((stA.name, diskKeySrc stA.sig stA.cfg callA) :
        String × (List (String × Nat) × List (String × Nat))) ≠
        (stB.name, diskKeySrc stB.sig stB.cfg callB) := by
      intro h
      exact hnames (congrArg Prod.fst h)
    have hA : diskExecute stA callA [] dlog0 =
        (stA.body callA,
         [((stA.name, diskKeySrc stA.sig stA.cfg callA), stA.body callA)],
         dlog0 ++ [stA.name]) := by
      rw [diskExecute]
      rfl
    rw [hA]
    simp only [diskExecute]
    have hnone : lookupKey
        [((stA.name, diskKeySrc stA.sig stA.cfg callA), stA.body callA)]
        (stB.name, diskKeySrc stB.sig stB.cfg callB) = none := by
      rw [lookupKey, if_neg hne]
      rfl
    rw [hnone]

/-- Witness for C8: steps `w1` and `w2` share signature, configuration and
call, hence the memory key; the later `w2` call is served `w1`'s value 4
with no `w2` log entry, while on disk `w2` misses and its body runs. -/
theorem C8_shared_memory_cache_witness :
    ((memExecute stepModelW2 [("x", 3)]
        (memExecute stepModelW [("x", 3)] [] []).2.1
        (memExecute stepModelW [("x", 3)] [] []).2.2).1 =
      (memExecute stepModelW [("x", 3)] [] []).1 ∧
     (memExecute stepModelW2 [("x", 3)]
        (memExecute stepModelW [("x", 3)] [] []).2.1
        (memExecute stepModelW [("x", 3)] [] []).2.2).2.2 =
      (memExecute stepModelW [("x", 3)] [] []).2.2) ∧
    (diskExecute stepModelW2 [("x", 3)]
        (diskExecute stepModelW [("x", 3)] [] []).2.1
        (diskExecute stepModelW [("x", 3)] [] []).2.2).2.2 =
      (diskExecute stepModelW [("x", 3)] [] []).2.2 ++ [stepModelW2.name] :=
  C8_shared_memory_cache stepModelW stepModelW2 [("x", 3)] [("x", 3)] [] [] []
    rfl rfl (by decide)

/-- `self.pipelines.get(pipeline, [])`: the adjacency of a
`PipelineComposition`, pipelines identified by `Nat` ids, insertion-ordered
(Python dict). -/
def childrenOf : List (Nat × List Nat) → Nat → List Nat
  | [], _ => []
  | pc :: rest, p => if pc.1 = p then pc.2 else childrenOf rest p

/-- The adjacency keys, in insertion order. -/
def adjKeys (adj : List (Nat × List Nat)) : List Nat :=
  adj.map Prod.fst

/-- Every pipeline appearing in some children list. -/
def allChildren (adj : List (Nat × List Nat)) : List Nat :=
  (adj.map Prod.snd).flatten

/-- `set(self.pipelines.keys()) | {c for children in values for c}`: every
pipeline referenced by the adjacency, duplicates removed. -/
def allNodesD (adj : List (Nat × List Nat)) : List Nat :=
  (adjKeys adj ++ allChildren adj).dedup

/-- The parent/child edge relation of the composition graph. -/
def edgeP (adj : List (Nat × List Nat)) (p q : Nat) : Prop :=
  q ∈ childrenOf adj p

instance (adj : List (Nat × List Nat)) (p q : Nat) :
    Decidable (edgeP adj p q) :=
  inferInstanceAs (Decidable (q ∈ childrenOf adj p))

/-- `not getattr(p, "parents", [])` after construction: no adjacency key
lists `p` among its children. -/
def noParents (adj : List (Nat × List Nat)) (p : Nat) : Prop :=
  ∀ pc ∈ adj, p ∉ pc.2

instance (adj : List (Nat × List Nat)) (p : Nat) :
    Decidable (noParents adj p) :=
  inferInstanceAs (Decidable (∀ pc ∈ adj, p ∉ pc.2))

/-- The referenced pipelines not yet visited, as a finite set — the
termination measure of the recursive `visit`. -/
def unvisited (adj : List (Nat × List Nat)) (visited : List Nat) :
    Finset Nat :=
  (allNodesD adj).toFinset.filter (fun x => x ∉ visited)

/-- The recursive `visit(pipeline)` of `_topological_sort`, on state
`(visited, order)`: return at once when already visited, else mark visited,
visit all children (left to right), then append the node to the postorder
list.  Recursion is bounded by explicit fuel; `|allNodesD| + 1` fuel always
suffices because each nesting level marks a fresh node visited. -/
def visitOne (adj : List (Nat × List Nat)) :
    Nat → Nat → List Nat × List Nat → List Nat × List Nat
  | 0, _, s => s
  | fuel + 1, v, s =>
    if v ∈ s.1 then s
    else
      let t := (childrenOf adj v).foldl
        (fun acc c => visitOne adj fuel c acc) (v :: s.1, s.2)
      (t.1, t.2 ++ [v])

/-- Visiting a worklist left to right (the `for child in ...` loop and the
`for root in roots` loop). -/
def visitMany (adj : List (Nat × List Nat)) (fuel : Nat) (vs : List Nat)
    (s : List Nat × List Nat) : List Nat × List Nat :=
  vs.foldl (fun acc c => visitOne adj fuel c acc) s

/-- `PipelineComposition._topological_sort`: DFS from every root of the
root list `rs`, then reverse the accumulated postorder.  (Python enumerates
the roots from a set, in unspecified order; the theorems therefore
quantify over any enumeration `rs` of the parentless referenced
pipelines.) -/
def topoSort (adj : List (Nat × List Nat)) (rs : List Nat) : List Nat :=
  (visitMany adj ((allNodesD adj).length + 1) rs ([], [])).2.reverse

/-- `PipelineComposition.run`: run each pipeline of the computed order in
turn; the trace records the pipelines whose `run` was invoked, in
invocation order. -/
def compositionRunTrace (adj : List (Nat × List Nat)) (rs : List Nat) :
    List Nat :=
  (topoSort adj rs).foldl (fun trace p => trace ++ [p]) []

/-- Children of any node are referenced pipelines. -/
theorem childrenOf_subset_allChildren (adj : List (Nat × List Nat)) (p : Nat) :
    ∀ q ∈ childrenOf adj p, q ∈ allChildren adj := by
  induction adj with
  | nil => intro q hq; cases hq
  | cons pc rest ih =>
    intro q hq
    rw [childrenOf] at hq
    rw [allChildren, List.map_cons, List.flatten_cons]
    by_cases hp : pc.1 = p
    · rw [if_pos hp] at hq
      exact List.mem_append_left _ hq
    · rw [if_neg hp] at hq
      exact List.mem_append_right _ (ih q hq)

/-- Membership in the referenced-pipelines list. -/
theorem mem_allNodesD (adj : List (Nat × List Nat)) (x : Nat) :
    x ∈ allNodesD adj ↔ x ∈ adjKeys adj ∨ x ∈ allChildren adj := by
  rw [allNodesD, List.mem_dedup, List.mem_append]

/-- An edge target is a referenced pipeline. -/
theorem edgeP_target_mem (adj : List (Nat × List Nat)) (p q : Nat)
    (h : edgeP adj p q) : q ∈ allNodesD adj :=
  (mem_allNodesD adj q).mpr (Or.inr (childrenOf_subset_allChildren adj p q h))

/-- An edge source is an adjacency key. -/
theorem edgeP_source_key (adj : List (Nat × List Nat)) (p q : Nat)
    (h : edgeP adj p q) : p ∈ adjKeys adj := by
  induction adj with
  | nil => cases h
  | cons pc rest ih =>
    rw [edgeP, childrenOf] at h
    rw [adjKeys, List.map_cons]
    by_cases hp : pc.1 = p
    · rw [hp]
      exact List.mem_cons_self _ _
    · rw [if_neg hp] at h
      exact List.mem_cons_of_mem _ (ih h)

/-- An edge source is a referenced pipeline. -/
theorem edgeP_source_mem (adj : List (Nat × List Nat)) (p q : Nat)
    (h : edgeP adj p q) : p ∈ allNodesD adj :=
  (mem_allNodesD adj p).mpr (Or.inl (edgeP_source_key adj p q h))

/-- With duplicate-free keys, `childrenOf` recovers each adjacency entry. -/
theorem childrenOf_eq_of_mem (adj : List (Nat × List Nat))
    (hnd : (adjKeys adj).Nodup) (pc : Nat × List Nat) (hpc : pc ∈ adj) :
    childrenOf adj pc.1 = pc.2 := by
  induction adj with
  | nil => cases hpc
  | cons qc rest ih =>
    rcases List.mem_cons.mp hpc with rfl | hpc'
    · rw [childrenOf, if_pos rfl]
    · rw [childrenOf, if_neg, ]
      · exact ih (List.nodup_cons.mp hnd).2 hpc'
      · intro he
        exact (List.nodup_cons.mp hnd).1
          (he ▸ List.mem_map_of_mem Prod.fst hpc')

/-- Defining property of the accumulated postorder: wherever the list
splits around a node, every child of that node occurs strictly earlier. -/
def TopoPost (adj : List (Nat × List Nat)) (o : List Nat) : Prop :=
  ∀ l1 u l2, o = l1 ++ u :: l2 → ∀ w, edgeP adj u w → w ∈ l1

/-- The empty postorder trivially satisfies the property. -/
theorem topoPost_nil (adj : List (Nat × List Nat)) : TopoPost adj [] := by
  intro l1 u l2 h
  exact absurd h (by simp)

/-- Appending a node whose children are all present preserves the
postorder property. -/
theorem topoPost_append (adj : List (Nat × List Nat)) (o : List Nat) (v : Nat)
    (h : TopoPost adj o) (hall : ∀ w, edgeP adj v w → w ∈ o) :
    TopoPost adj (o ++ [v]) := by
  intro l1 u l2 heq w hw
  rcases l2.eq_nil_or_concat with rfl | ⟨l2c, x, rfl⟩
  · rcases List.append_inj' heq rfl with ⟨ho, hu⟩
    cases hu
    exact ho ▸ hall w hw
  · rw [List.concat_eq_append] at heq
    have heq2 : o ++ [v] = (l1 ++ u :: l2c) ++ [x] := by
      rw [heq]
      simp
    rcases List.append_inj' heq2 rfl with ⟨ho, _⟩
    exact h l1 u l2c ho w hw

/-- A node of a postorder list has all of its children in the list. -/
theorem topoPost_closed (adj : List (Nat × List Nat)) (o : List Nat)
    (h : TopoPost adj o) (u : Nat) (hu : u ∈ o) (w : Nat)
    (hw : edgeP adj u w) : w ∈ o := by
  rcases List.append_of_mem hu with ⟨l1, l2, hsplit⟩
  rw [hsplit]
  exact List.mem_append_left _ (h l1 u l2 hsplit w hw)

/-- Marking a referenced node visited erases it from the unvisited set. -/
theorem unvisited_cons (adj : List (Nat × List Nat)) (v : Nat)
    (visited : List Nat) :
    unvisited adj (v :: visited) = (unvisited adj visited).erase v := by
  ext x
  simp only [unvisited, Finset.mem_filter, Finset.mem_erase,
    List.mem_toFinset, List.mem_cons]
  tauto

/-- Visiting a fresh referenced node strictly shrinks the unvisited count. -/
theorem card_unvisited_cons (adj : List (Nat × List Nat)) (v : Nat)
    (visited : List Nat) (hv : v ∈ allNodesD adj) (hnv : v ∉ visited) :
    (unvisited adj (v :: visited)).card + 1 = (unvisited adj visited).card := by
  have hmem : v ∈ unvisited adj visited := by
    simp [unvisited, hv, hnv]
  rw [unvisited_cons, Finset.card_erase_of_mem hmem]
  have hpos : 0 < (unvisited adj visited).card := Finset.card_pos.mpr ⟨v, hmem⟩
  omega

/-- A larger visited set leaves no more unvisited nodes. -/
theorem card_unvisited_le (adj : List (Nat × List Nat))
    (visited visited' : List Nat) (h : ∀ x ∈ visited, x ∈ visited') :
    (unvisited adj visited').card ≤ (unvisited adj visited).card := by
  apply Finset.card_le_card
  intro x hx
  simp only [unvisited, Finset.mem_filter, List.mem_toFinset] at hx ⊢
  exact ⟨hx.1, fun hv => hx.2 (h x hv)⟩

/-- The unvisited count never exceeds the number of referenced nodes. -/
theorem card_unvisited_le_len (adj : List (Nat × List Nat))
    (visited : List Nat) :
    (unvisited adj visited).card ≤ (allNodesD adj).length :=
  le_trans (Finset.card_le_card (Finset.filter_subset _ _))
    (List.toFinset_card_le _)

/-- The invariant carried through the DFS on state `(visited, order)` with
ghost gray chain `G` (the nodes currently on the recursion stack): visited
is exactly order plus gray; order is duplicate-free, satisfies the
postorder property and is disjoint from gray; everything visited is a
referenced pipeline. -/
def DfsInv (adj : List (Nat × List Nat)) (G : List Nat)
    (s : List Nat × List Nat) : Prop :=
  (∀ x, x ∈ s.1 ↔ x ∈ s.2 ∨ x ∈ G) ∧
  (∀ x ∈ s.2, x ∉ G) ∧
  s.2.Nodup ∧
  TopoPost adj s.2 ∧
  (∀ x ∈ s.1, x ∈ allNodesD adj)

/-- Specification of the worklist loop, given the specification of a single
visit at the same fuel: the invariant is preserved, every worklist node
ends visited, and the visited set only grows. -/
theorem visitMany_spec_of (adj : List (Nat × List Nat)) (fuel : Nat)
    (hone : ∀ (v : Nat) (s : List Nat × List Nat) (G : List Nat),
      v ∈ allNodesD adj →
      (∀ g ∈ G, Relation.TransGen (edgeP adj) g v) →
      DfsInv adj G s →
      (unvisited adj s.1).card + 1 ≤ fuel →
      DfsInv adj G (visitOne adj fuel v s) ∧
      v ∈ (visitOne adj fuel v s).1 ∧
      (∀ x ∈ s.1, x ∈ (visitOne adj fuel v s).1)) :
    ∀ (vs : List Nat) (s : List Nat × List Nat) (G : List Nat),
      (∀ v ∈ vs, v ∈ allNodesD adj) →
      (∀ g ∈ G, ∀ v ∈ vs, Relation.TransGen (edgeP adj) g v) →
      DfsInv adj G s →
      (unvisited adj s.1).card + 1 ≤ fuel →
      DfsInv adj G (visitMany adj fuel vs s) ∧
      (∀ v ∈ vs, v ∈ (visitMany adj fuel vs s).1) ∧
      (∀ x ∈ s.1, x ∈ (visitMany adj fuel vs s).1) := by
  intro vs
  induction vs with
  | nil =>
    intro s G _ _ hInv _
    exact ⟨hInv, by simp, fun x hx => hx⟩
  | cons v rest ih =>
    intro s G hvs hG hInv hf
    have hstep : visitMany adj fuel (v :: rest) s =
        visitMany adj fuel rest (visitOne adj fuel v s) := by
      rw [visitMany, List.foldl_cons]
      rfl
    rw [hstep]
    have h1 := hone v s G (hvs v (List.mem_cons_self _ _))
      (fun g hg => hG g hg v (List.mem_cons_self _ _)) hInv hf
    have hf2 : (unvisited adj (visitOne adj fuel v s).1).card + 1 ≤ fuel := by
      have := card_unvisited_le adj s.1 (visitOne adj fuel v s).1 h1.2.2
      omega
    have h2 := ih (visitOne adj fuel v s) G
      (fun w hw => hvs w (List.mem_cons_of_mem _ hw))
      (fun g hg w hw => hG g hg w (List.mem_cons_of_mem _ hw)) h1.1 hf2
    refine ⟨h2.1, ?_, fun x hx => h2.2.2 x (h1.2.2 x hx)⟩
    intro w hw
    rcases List.mem_cons.mp hw with rfl | hw2
    · exact h2.2.2 w h1.2.1
    · exact h2.2.1 w hw2

/-- Specification of a single DFS visit with enough fuel, for an acyclic
graph: the invariant is preserved, the node ends visited, the visited set
only grows. -/
theorem visitOne_spec (adj : List (Nat × List Nat))
    (hacyc : ∀ p, ¬Relation.TransGen (edgeP adj) p p) :
    ∀ (fuel : Nat) (v : Nat) (s : List Nat × List Nat) (G : List Nat),
      v ∈ allNodesD adj →
      (∀ g ∈ G, Relation.TransGen (edgeP adj) g v) →
      DfsInv adj G s →
      (unvisited adj s.1).card + 1 ≤ fuel →
      DfsInv adj G (visitOne adj fuel v s) ∧
      v ∈ (visitOne adj fuel v s).1 ∧
      (∀ x ∈ s.1, x ∈ (visitOne adj fuel v s).1) := by
  intro fuel
  induction fuel with
  | zero =>
    intro v s G _ _ _ hf
    omega
  | succ fuel ih =>
    intro v s G hv hG hInv hf
    by_cases hmem : v ∈ s.1
    · rw [visitOne, if_pos hmem]
      exact ⟨hInv, hmem, fun x hx => hx⟩
    · have hkey : visitOne adj (fuel + 1) v s =
          ((visitMany adj fuel (childrenOf adj v) (v :: s.1, s.2)).1,
           (visitMany adj fuel (childrenOf adj v) (v :: s.1, s.2)).2 ++ [v]) := by
        rw [visitOne, if_neg hmem]
        rfl
      rw [hkey]
      obtain ⟨hI1, hI2, hI3, hI4, hI5⟩ := hInv
      have hvnotG : v ∉ G := fun hvG => hmem ((hI1 v).mpr (Or.inr hvG))
      have hvnotO : v ∉ s.2 := fun hvO => hmem ((hI1 v).mpr (Or.inl hvO))
      have hInner : DfsInv adj (v :: G) (v :: s.1, s.2) := by
        refine ⟨?_, ?_, hI3, hI4, ?_⟩
        · intro x
          have := hI1 x
          simp only [List.mem_cons] at this ⊢
          tauto
        · intro x hx
          simp only [List.mem_cons]
          push_neg
          exact ⟨fun he => hvnotO (he ▸ hx), hI2 x hx⟩
        · intro x hx
          rcases List.mem_cons.mp hx with rfl | hx2
          · exact hv
          · exact hI5 x hx2
      have hGInner : ∀ g ∈ v :: G, ∀ w ∈ childrenOf adj v,
          Relation.TransGen (edgeP adj) g w := by
        intro g hg w hw
        rcases List.mem_cons.mp hg with rfl | hg2
        · exact Relation.TransGen.single hw
        · exact (hG g hg2).tail hw
      have hfInner : (unvisited adj (v :: s.1)).card + 1 ≤ fuel := by
        have := card_unvisited_cons adj v s.1 hv hmem
        omega
      have hT := visitMany_spec_of adj fuel ih (childrenOf adj v)
        (v :: s.1, s.2) (v :: G)
        (fun w hw => edgeP_target_mem adj v w hw) hGInner hInner hfInner
      obtain ⟨⟨hT1, hT2, hT3, hT4, hT5⟩, hTc, hTm⟩ := hT
      have hvT1 : v ∈ (visitMany adj fuel (childrenOf adj v) (v :: s.1, s.2)).1 :=
        hTm v (List.mem_cons_self _ _)
      have hvnotT2 : v ∉ (visitMany adj fuel (childrenOf adj v) (v :: s.1, s.2)).2 :=
        fun hvT2 => hT2 v hvT2 (List.mem_cons_self _ _)
      refine ⟨⟨?_, ?_, ?_, ?_, hT5⟩, hvT1, fun x hx => hTm x (List.mem_cons_of_mem _ hx)⟩
      · intro x
        have := hT1 x
        simp only [List.mem_cons, List.mem_append, List.mem_singleton] at this ⊢
        tauto
      · intro x hx
        rcases List.mem_append.mp hx with hx2 | hxv
        · exact fun hg => hT2 x hx2 (List.mem_cons_of_mem _ hg)
        · rcases List.mem_singleton.mp hxv with rfl
          exact hvnotG
      · rw [List.nodup_append]
        exact ⟨hT3, List.nodup_singleton v, fun x hx2 hxv =>
          hT2 x hx2 ((List.mem_singleton.mp hxv) ▸ List.mem_cons_self _ _)⟩
      · apply topoPost_append adj _ v hT4
        intro w hw
        have hwT1 : w ∈ (visitMany adj fuel (childrenOf adj v) (v :: s.1, s.2)).1 :=
          hTc w hw
        rcases (hT1 w).mp hwT1 with hw2 | hwvG
        · exact hw2
        · rcases List.mem_cons.mp hwvG with he | hwG
          · rw [he] at hw
            exact absurd (Relation.TransGen.single hw) (hacyc v)
          · exact absurd ((hG w hwG).tail hw) (hacyc w)

/-- If a list splits as `l1 ++ p :: l2` with `q ∈ l1` and no duplicates,
then in the reversed list `p` occurs strictly before `q`. -/
theorem indexOf_reverse_split (l1 l2 : List Nat) (p q : Nat)
    (hnd : (l1 ++ p :: l2).Nodup) (hq : q ∈ l1) :
    (l1 ++ p :: l2).reverse.indexOf p < (l1 ++ p :: l2).reverse.indexOf q := by
  have hrev : (l1 ++ p :: l2).reverse = (l2.reverse ++ [p]) ++ l1.reverse := by
    rw [List.reverse_append, List.reverse_cons]
  obtain ⟨hnd1, hnd2, hdisj⟩ := List.nodup_append.mp hnd
  have hpl2 : p ∉ l2 := (List.nodup_cons.mp hnd2).1
  have hqp : q ∉ p :: l2 := fun hmem => hdisj hq hmem
  have hql2 : q ∉ l2 := fun hmem => hqp (List.mem_cons_of_mem _ hmem)
  have hqnep : q ≠ p := fun he => hqp (he ▸ List.mem_cons_self _ _)
  rw [hrev]
  have hidxp : List.indexOf p ((l2.reverse ++ [p]) ++ l1.reverse) =
      l2.reverse.length := by
    rw [List.indexOf_append_of_mem (by simp)]
    rw [List.indexOf_append_of_not_mem (by simpa using hpl2)]
    simp
  have hidxq : l2.reverse.length + 1 ≤
      List.indexOf q ((l2.reverse ++ [p]) ++ l1.reverse) := by
    have hqnot : q ∉ l2.reverse ++ [p] := by
      simp only [List.mem_append, List.mem_reverse, List.mem_singleton]
      push_neg
      exact ⟨hql2, hqnep⟩
    rw [List.indexOf_append_of_not_mem hqnot]
    simp
  omega

/-- The root loop plus completeness facts bundled along the claim: the core
correctness of `_topological_sort` over an arbitrary enumeration of the
parentless referenced pipelines. -/
theorem topoSort_core (adj : List (Nat × List Nat)) (rs : List Nat)
    (hnd : (adjKeys adj).Nodup)
    (hacyc : ∀ p, ¬Relation.TransGen (edgeP adj) p p)
    (hrs1 : ∀ p ∈ rs, p ∈ allNodesD adj)
    (hrs2 : ∀ p ∈ allNodesD adj, noParents adj p → p ∈ rs) :
    (∀ x, x ∈ (visitMany adj ((allNodesD adj).length + 1) rs ([], [])).2 ↔
      x ∈ allNodesD adj) ∧
    (visitMany adj ((allNodesD adj).length + 1) rs ([], [])).2.Nodup ∧
    TopoPost adj (visitMany adj ((allNodesD adj).length + 1) rs ([], [])).2 := by
  have hbase : DfsInv adj [] ([], []) :=
    ⟨by simp, by simp, List.nodup_nil, topoPost_nil adj, by simp⟩
  have hfuel : (unvisited adj ([] : List Nat)).card + 1 ≤
      (allNodesD adj).length + 1 := by
    have := card_unvisited_le_len adj []
    omega
  have hrun := visitMany_spec_of adj ((allNodesD adj).length + 1)
    (visitOne_spec adj hacyc _) rs ([], []) [] hrs1 (by simp) hbase hfuel
  obtain ⟨⟨hI1, _, hI3, hI4, hI5⟩, hroots, _⟩ := hrun
  have hmemF : ∀ x,
      x ∈ (visitMany adj ((allNodesD adj).length + 1) rs ([], [])).1 ↔
      x ∈ (visitMany adj ((allNodesD adj).length + 1) rs ([], [])).2 := by
    intro x
    rw [hI1 x]
    simp
  have hclosed : ∀ u ∈ (visitMany adj ((allNodesD adj).length + 1) rs ([], [])).2,
      ∀ w, edgeP adj u w →
      w ∈ (visitMany adj ((allNodesD adj).length + 1) rs ([], [])).2 :=
    fun u hu w hw => topoPost_closed adj _ hI4 u hu w hw
  have hwf : WellFounded (fun (a b : {x // x ∈ allNodesD adj}) =>
      Relation.TransGen (edgeP adj) a.1 b.1) := by
    have hT : IsTrans {x // x ∈ allNodesD adj}
        (fun a b => Relation.TransGen (edgeP adj) a.1 b.1) :=
      ⟨fun a b c h1 h2 => h1.trans h2⟩
    have hI : IsIrrefl {x // x ∈ allNodesD adj}
        (fun a b => Relation.TransGen (edgeP adj) a.1 b.1) :=
      ⟨fun a h => hacyc a.1 h⟩
    exact Finite.wellFounded_of_trans_of_irrefl _
  have hcomplete : ∀ a : {x // x ∈ allNodesD adj},
      a.1 ∈ (visitMany adj ((allNodesD adj).length + 1) rs ([], [])).2 := by
    intro a
    refine hwf.induction
      (C := fun c =>
        c.1 ∈ (visitMany adj ((allNodesD adj).length + 1) rs ([], [])).2) a ?_
    intro b ihb
    by_cases hroot : noParents adj b.1
    · have hbrs : b.1 ∈ rs := hrs2 b.1 b.2 hroot
      exact (hmemF b.1).mp (hroots b.1 hbrs)
    · rw [noParents] at hroot
      push_neg at hroot
      obtain ⟨pc, hpc, hbpc⟩ := hroot
      have hedge : edgeP adj pc.1 b.1 := by
        rw [edgeP, childrenOf_eq_of_mem adj hnd pc hpc]
        exact hbpc
      have hpmem : pc.1 ∈ allNodesD adj := edgeP_source_mem adj _ _ hedge
      have hp2 : pc.1 ∈ (visitMany adj ((allNodesD adj).length + 1) rs ([], [])).2 :=
        ihb ⟨pc.1, hpmem⟩ (Relation.TransGen.single hedge)
      exact hclosed pc.1 hp2 b.1 hedge
  refine ⟨?_, hI3, hI4⟩
  intro x
  constructor
  · intro hx
    exact hI5 x ((hmemF x).mpr hx)
  · intro hx
    exact hcomplete ⟨x, hx⟩

/-- Folding "run each pipeline, appending it to the trace" over a list
produces the list itself. -/
theorem foldl_trace_eq (l acc : List Nat) :
    l.foldl (fun trace p => trace ++ [p]) acc = acc ++ l := by
  induction l generalizing acc with
  | nil => simp
  | cons p rest ih =>
    rw [List.foldl_cons, ih]
    simp

/-- C5: for an acyclic adjacency with duplicate-free keys and any
enumeration `rs` of its parentless referenced pipelines, the computed
topological order contains every referenced pipeline exactly once, places
every pipeline strictly before each of its transitive children (any node
reachable through one or more edges, diamonds included), and
`PipelineComposition.run` invokes the pipelines sequentially in exactly
that order. -/
theorem C5_topological_run (adj : List (Nat × List Nat)) (rs : List Nat)
    (hnd : (adjKeys adj).Nodup)
    (hacyc : ∀ p, ¬Relation.TransGen (edgeP adj) p p)
    (hrs1 : ∀ p ∈ rs, p ∈ allNodesD adj ∧ noParents adj p)
    (hrs2 : ∀ p ∈ allNodesD adj, noParents adj p → p ∈ rs) :
    (∀ x, x ∈ topoSort adj rs ↔ x ∈ allNodesD adj) ∧
    (topoSort adj rs).Nodup ∧
    (∀ p q, Relation.TransGen (edgeP adj) p q →
      (topoSort adj rs).indexOf p < (topoSort adj rs).indexOf q) ∧
    compositionRunTrace adj rs = topoSort adj rs := by
  obtain ⟨hmem, hnodup, hpost⟩ :=
    topoSort_core adj rs hnd hacyc (fun p hp => (hrs1 p hp).1) hrs2
  have hmemTS : ∀ x, x ∈ topoSort adj rs ↔ x ∈ allNodesD adj := by
    intro x
    rw [topoSort, List.mem_reverse]
    exact hmem x
  have hsingle : ∀ p q, edgeP adj p q →
      (topoSort adj rs).indexOf p < (topoSort adj rs).indexOf q := by
    intro p q he
    have hpF : p ∈ (visitMany adj ((allNodesD adj).length + 1) rs ([], [])).2 :=
      (hmem p).mpr (edgeP_source_mem adj p q he)
    rcases List.append_of_mem hpF with ⟨l1, l2, hsplit⟩
    have hqF : q ∈ l1 := hpost l1 p l2 hsplit q he
    have := indexOf_reverse_split l1 l2 p q (hsplit ▸ hnodup) hqF
    rw [topoSort, hsplit]
    exact this
  refine ⟨hmemTS, ?_, ?_, ?_⟩
  · rw [topoSort]
    exact List.nodup_reverse.mpr hnodup
  · intro p q h
    induction h with
    | single he => exact hsingle _ _ he
    | tail _ he ih => exact lt_trans ih (hsingle _ _ he)
  · rw [compositionRunTrace, foldl_trace_eq]
    rfl

/-- Monotone node ranks rule out cycles. -/
theorem acyclic_of_rank (adj : List (Nat × List Nat)) (f : Nat → Nat)
    (hf : ∀ a b, edgeP adj a b → f a < f b) :
    ∀ p, ¬Relation.TransGen (edgeP adj) p p := by
  have hlt : ∀ a b, Relation.TransGen (edgeP adj) a b → f a < f b := by
    intro a b h
    induction h with
    | single he => exact hf _ _ he
    | tail _ he ih => exact lt_trans ih (hf _ _ he)
  intro p h
  exact lt_irrefl (f p) (hlt p p h)

/-- The diamond adjacency `{0: [1, 2], 1: [3], 2: [3], 3: []}` used as the
witness input. -/
def diamondAdj : List (Nat × List Nat) :=
  [(0, [1, 2]), (1, [3]), (2, [3]), (3, [])]

/-- Every diamond edge increases the node id. -/
theorem diamondAdj_edge_lt (a b : Nat) (h : edgeP diamondAdj a b) : a < b := by
  rw [edgeP, diamondAdj, childrenOf] at h
  by_cases h0 : (0 : Nat) = a
  · rw [if_pos h0] at h
    simp only [List.mem_cons, List.not_mem_nil, or_false] at h
    rcases h with rfl | rfl <;> omega
  · rw [if_neg h0, childrenOf] at h
    by_cases h1 : (1 : Nat) = a
    · rw [if_pos h1] at h
      simp only [List.mem_cons, List.not_mem_nil, or_false] at h
      subst h
      omega
    · rw [if_neg h1, childrenOf] at h
      by_cases h2 : (2 : Nat) = a
      · rw [if_pos h2] at h
        simp only [List.mem_cons, List.not_mem_nil, or_false] at h
        subst h
        omega
      · rw [if_neg h2, childrenOf] at h
        by_cases h3 : (3 : Nat) = a
        · rw [if_pos h3] at h
          cases h
        · rw [if_neg h3, childrenOf] at h
          cases h

/-- The diamond adjacency is acyclic. -/
theorem diamondAdj_acyclic : ∀ p, ¬Relation.TransGen (edgeP diamondAdj) p p :=
  acyclic_of_rank diamondAdj (fun n => n) diamondAdj_edge_lt

/-- Witness for C5 on the diamond `{0: [1, 2], 1: [3], 2: [3], 3: []}` with
root enumeration `[0]`: the shared grandchild 3 is scheduled once, after
both 1 and 2, and the run trace equals the computed order. -/
theorem C5_topological_run_witness :
    ((3 : Nat) ∈ topoSort diamondAdj [0] ↔ 3 ∈ allNodesD diamondAdj) ∧
    (topoSort diamondAdj [0]).Nodup ∧
    (topoSort diamondAdj [0]).indexOf 0 < (topoSort diamondAdj [0]).indexOf 3 ∧
    (topoSort diamondAdj [0]).indexOf 1 < (topoSort diamondAdj [0]).indexOf 3 ∧
    (topoSort diamondAdj [0]).indexOf 2 < (topoSort diamondAdj [0]).indexOf 3 ∧
    compositionRunTrace diamondAdj [0] = topoSort diamondAdj [0] := by
  have h := C5_topological_run diamondAdj [0] (by decide) diamondAdj_acyclic
    (by decide) (by decide)
  exact ⟨h.1 3, h.2.1,
    h.2.2.1 0 3 ((Relation.TransGen.single (a := (0 : Nat)) (b := (1 : Nat))
      (by decide)).tail (by decide)),
    h.2.2.1 1 3 (Relation.TransGen.single (by decide)),
    h.2.2.1 2 3 (Relation.TransGen.single (by decide)),
    h.2.2.2⟩
